import Mathlib

/-!
Verification of the short-identifier redirect and analytics engine of the
qr-generator-saas repository: a shallow embedding of the scan recorder, the
redirect resolver, the quota check, the analytics aggregation helpers, the
plan-to-limits hook, and the ownership-scoped update and delete handlers,
together with theorems settling the specified properties.
-/

set_option maxRecDepth 8000

namespace QR

/-- Milliseconds per UTC calendar day, as used by JS Date arithmetic. -/
def msPerDay : Nat := 86400000

/-- One scan event, embedded in a link. Timestamps are JS Date values in
milliseconds since the epoch. -/
structure ScanEvent where
  timestamp : Nat
  userAgent : Option String
  ipAddress : Option String
  country : Option String
deriving DecidableEq

/-- The embedded analytics aggregate of a link. -/
structure Analytics where
  totalScans : Nat
  lastScanned : Option Nat
  scanHistory : List ScanEvent
deriving DecidableEq

/-- Analytics of a freshly created link: zero scans, no last-scan time,
empty history. -/
def freshAnalytics : Analytics := ⟨0, none, []⟩

/-- The scan tracking block of the GET /r/:shortId handler: push the scan
event, increment totalScans, set lastScanned, then if the history exceeds
1000 entries keep only the last 1000 (slice from the end). -/
def recordScan (a : Analytics) (e : ScanEvent) : Analytics :=
  let h := a.scanHistory ++ [e]
  { totalScans := a.totalScans + 1
    lastScanned := some e.timestamp
    scanHistory := if h.length > 1000 then h.drop (h.length - 1000) else h }

/-- The suffix of the most recent n entries of a list. -/
def lastN (n : Nat) (l : List α) : List α := l.drop (l.length - n)

theorem length_lastN (n : Nat) (l : List α) : (lastN n l).length = min l.length n := by
  simp only [lastN, List.length_drop]
  omega

theorem lastN_of_le (n : Nat) (l : List α) (h : l.length ≤ n) : lastN n l = l := by
  simp only [lastN]
  rw [Nat.sub_eq_zero_of_le h, List.drop_zero]

theorem lastN_append_lastN (n : Nat) (x y : List α) :
    lastN n (lastN n x ++ y) = lastN n (x ++ y) := by
  simp only [lastN, List.length_append, List.length_drop]
  rw [List.drop_append_eq_append_drop, List.drop_drop, List.drop_append_eq_append_drop]
  simp only [List.length_drop]
  congr 1
  · congr 1
    omega
  · congr 1
    omega

theorem recordScan_totalScans (a : Analytics) (e : ScanEvent) :
    (recordScan a e).totalScans = a.totalScans + 1 := rfl

theorem recordScan_lastScanned (a : Analytics) (e : ScanEvent) :
    (recordScan a e).lastScanned = some e.timestamp := rfl

theorem recordScan_scanHistory (a : Analytics) (e : ScanEvent) :
    (recordScan a e).scanHistory = lastN 1000 (a.scanHistory ++ [e]) := by
  simp only [recordScan, lastN]
  split
  · rfl
  · next hle =>
    rw [Nat.sub_eq_zero_of_le (by omega), List.drop_zero]

theorem recordScan_history_le (a : Analytics) (e : ScanEvent) :
    (recordScan a e).scanHistory.length ≤ 1000 := by
  rw [recordScan_scanHistory, length_lastN]
  omega

/-- The timestamp of the last event of a list of scan events, or a default. -/
def lastTimestampOr (evs : List ScanEvent) (d : Option Nat) : Option Nat :=
  match evs.getLast? with
  | some e => some e.timestamp
  | none => d

theorem lastTimestampOr_cons (e : ScanEvent) (evs : List ScanEvent) (d : Option Nat) :
    lastTimestampOr (e :: evs) d = lastTimestampOr evs (some e.timestamp) := by
  cases h : evs.getLast? with
  | none => simp [lastTimestampOr, List.getLast?_cons, h]
  | some x => simp [lastTimestampOr, List.getLast?_cons, h]

theorem foldl_recordScan_lastScanned (evs : List ScanEvent) :
    ∀ a : Analytics, (evs.foldl recordScan a).lastScanned = lastTimestampOr evs a.lastScanned := by
  induction evs with
  | nil => intro a; rfl
  | cons e rest ih =>
    intro a
    rw [List.foldl_cons, ih, lastTimestampOr_cons, recordScan_lastScanned]

theorem foldl_recordScan_spec (evs : List ScanEvent) :
    ∀ a : Analytics, a.scanHistory.length ≤ 1000 →
      (evs.foldl recordScan a).totalScans = a.totalScans + evs.length
      ∧ (evs.foldl recordScan a).scanHistory = lastN 1000 (a.scanHistory ++ evs) := by
  induction evs with
  | nil =>
    intro a ha
    refine ⟨rfl, ?_⟩
    rw [List.append_nil, lastN_of_le 1000 _ ha]
    rfl
  | cons e rest ih =>
    intro a ha
    rw [List.foldl_cons]
    obtain ⟨ht, hh⟩ := ih (recordScan a e) (recordScan_history_le a e)
    refine ⟨?_, ?_⟩
    · rw [ht, recordScan_totalScans]
      simp only [List.length_cons]
      omega
    · rw [hh, recordScan_scanHistory, lastN_append_lastN, List.append_assoc,
        List.singleton_append]

/-- A stored link (QRCode document): short identifier, destination url,
optional owner, active flag and embedded analytics. -/
structure Link where
  shortId : String
  url : String
  userId : Option String
  isActive : Bool
  analytics : Analytics
deriving DecidableEq

/-- Replace the first element satisfying p by its image under f, as the
save of a document found by findOne does in the store. -/
def updateFirstMatch (p : Link → Bool) (f : Link → Link) : List Link → List Link
  | [] => []
  | l :: rest => if p l then f l :: rest else l :: updateFirstMatch p f rest

/-- The GET /r/:shortId handler against a list-modelled store: findOne by
shortId with isActive true; on a miss answer not-found (none) leaving the
store unchanged; on a hit record the scan on that document, save it, and
answer the destination url. -/
def resolveRedirect (store : List Link) (sid : String) (e : ScanEvent) :
    Option String × List Link :=
  match store.find? (fun l => l.shortId == sid && l.isActive) with
  | none => (none, store)
  | some qr =>
      (some qr.url,
        updateFirstMatch (fun l => l.shortId == sid && l.isActive)
          (fun l => { l with analytics := recordScan l.analytics e }) store)

/-- The store after a sequence of resolutions of one identifier. -/
def resolveSeq (store : List Link) (sid : String) (evs : List ScanEvent) : List Link :=
  evs.foldl (fun s e => (resolveRedirect s sid e).2) store

theorem resolveRedirect_active_singleton (sid url : String) (uid : Option String)
    (a : Analytics) (e : ScanEvent) :
    resolveRedirect [⟨sid, url, uid, true, a⟩] sid e
      = (some url, [⟨sid, url, uid, true, recordScan a e⟩]) := by
  have hp : (fun l : Link => l.shortId == sid && l.isActive) ⟨sid, url, uid, true, a⟩ = true := by
    simp
  simp [resolveRedirect, List.find?, hp, updateFirstMatch]

theorem resolveSeq_singleton (sid url : String) (uid : Option String) (evs : List ScanEvent) :
    ∀ a : Analytics,
      resolveSeq [⟨sid, url, uid, true, a⟩] sid evs
        = [⟨sid, url, uid, true, evs.foldl recordScan a⟩] := by
  induction evs with
  | nil => intro a; rfl
  | cons e rest ih =>
    intro a
    show resolveSeq (resolveRedirect [⟨sid, url, uid, true, a⟩] sid e).2 sid rest = _
    rw [resolveRedirect_active_singleton, ih, List.foldl_cons]

/-- C1: for an active link with fresh analytics, every sequence of k
resolutions of its identifier yields totalScans = k, a scan history that is
exactly the most recent min(k, 1000) events in chronological order
(truncation drops from the front), and the last-scanned time of the final
event. -/
theorem c1_scan_recording_monotonic (sid url : String) (uid : Option String)
    (evs : List ScanEvent) :
    resolveSeq [⟨sid, url, uid, true, freshAnalytics⟩] sid evs
        = [⟨sid, url, uid, true, evs.foldl recordScan freshAnalytics⟩]
    ∧ (evs.foldl recordScan freshAnalytics).totalScans = evs.length
    ∧ (evs.foldl recordScan freshAnalytics).scanHistory = evs.drop (evs.length - 1000)
    ∧ (evs.foldl recordScan freshAnalytics).scanHistory.length = min evs.length 1000
    ∧ (evs.foldl recordScan freshAnalytics).lastScanned = lastTimestampOr evs none := by
  obtain ⟨ht, hh⟩ := foldl_recordScan_spec evs freshAnalytics (by simp [freshAnalytics])
  have hist : (evs.foldl recordScan freshAnalytics).scanHistory = evs.drop (evs.length - 1000) := by
    rw [hh]
    simp [freshAnalytics, lastN]
  refine ⟨resolveSeq_singleton sid url uid evs freshAnalytics, ?_, hist, ?_, ?_⟩
  · rw [ht]
    simp [freshAnalytics]
  · rw [hist, List.length_drop]; omega
  · exact foldl_recordScan_lastScanned evs freshAnalytics

/-- A QR record of the in-memory prototype server: the fields its redirect
and creation endpoints touch. -/
structure MemQR where
  userId : Option String
  originalUrl : String
  isActive : Bool
  totalScans : Nat
  lastScanned : Option Nat
deriving DecidableEq

/-- JS Map.set on an association list: replace the value at the first
matching key in place, or append a new entry. -/
def memSet (s : List (String × MemQR)) (k : String) (v : MemQR) : List (String × MemQR) :=
  match s with
  | [] => [(k, v)]
  | p :: rest => if p.1 = k then (k, v) :: rest else p :: memSet rest k v

/-- The creation endpoint of the in-memory server always stores the new
record with isActive true. -/
def memCreate (s : List (String × MemQR)) (sid : String) (uid : Option String)
    (url : String) : List (String × MemQR) :=
  memSet s sid ⟨uid, url, true, 0, none⟩

/-- The redirect endpoint of the in-memory server: Map.get by shortId with
no isActive filter; on a hit bump totalScans and lastScanned and store the
record back. -/
def memResolve (s : List (String × MemQR)) (sid : String) (now : Nat) :
    Option String × List (String × MemQR) :=
  match s.find? (fun p => p.1 == sid) with
  | none => (none, s)
  | some p =>
      (some p.2.originalUrl,
        memSet s sid { p.2 with totalScans := p.2.totalScans + 1, lastScanned := some now })

/-- States of the in-memory qrCodes map reachable from the empty map via
its creation and redirect endpoints, the only code that writes to it. -/
inductive MemReachable : List (String × MemQR) → Prop where
  | init : MemReachable []
  | create (s sid uid url) : MemReachable s → MemReachable (memCreate s sid uid url)
  | redirect (s sid now) : MemReachable s → MemReachable (memResolve s sid now).2

theorem mem_memSet (s : List (String × MemQR)) (k : String) (v : MemQR) :
    ∀ p ∈ memSet s k v, p = (k, v) ∨ p ∈ s := by
  induction s with
  | nil => simp [memSet]
  | cons q rest ih =>
    intro p hp
    simp only [memSet] at hp
    split at hp
    · rcases List.mem_cons.1 hp with h | h
      · exact Or.inl h
      · exact Or.inr (List.mem_cons_of_mem _ h)
    · rcases List.mem_cons.1 hp with h | h
      · exact Or.inr (h ▸ List.mem_cons_self _ _)
      · rcases ih p h with h' | h'
        · exact Or.inl h'
        · exact Or.inr (List.mem_cons_of_mem _ h')

theorem memReachable_all_active (s : List (String × MemQR)) (hs : MemReachable s) :
    ∀ p ∈ s, p.2.isActive = true := by
  induction hs with
  | init => simp
  | create s sid uid url _ ih =>
    intro p hp
    rcases mem_memSet s sid _ p hp with h | h
    · rw [h]
    · exact ih p h
  | redirect s sid now _ ih =>
    intro p hp
    simp only [memResolve] at hp
    split at hp
    · exact ih p hp
    · next q hq =>
      rcases mem_memSet s sid _ p hp with h | h
      · rw [h]
        exact ih q (List.mem_of_find?_eq_some hq)
      · exact ih p h

/-- C5: when no stored link both carries the requested identifier and is
active (covering unknown identifiers and links with isActive false), the
redirect resolver of the production servers answers not-found with no
destination url and leaves the store, hence every analytics record, intact;
and in the in-memory prototype, whose redirect skips the isActive filter,
every reachable store state contains only active records, so an inactive
stored link can never be resolved there either. -/
theorem c5_inactive_resolves_not_found :
    (∀ (store : List Link) (sid : String) (e : ScanEvent),
      (∀ l ∈ store, l.shortId = sid → l.isActive = false) →
      resolveRedirect store sid e = (none, store))
    ∧ (∀ s, MemReachable s → ∀ p ∈ s, p.2.isActive = true) := by
  refine ⟨?_, memReachable_all_active⟩
  intro store sid e h
  have hf : store.find? (fun l => l.shortId == sid && l.isActive) = none := by
    rw [List.find?_eq_none]
    intro l hl
    simp only [Bool.and_eq_true, beq_iff_eq, not_and]
    intro hsid
    rw [h l hl hsid]
    simp
  simp [resolveRedirect, hf]

/-- Witness for C5: a store holding one inactive link with the requested
identifier resolves to not-found unchanged, and a concrete reachable
in-memory state (create then redirect) contains only active records. -/
theorem c5_witness :
    resolveRedirect [⟨"abc12345", "https://example.com", none, false, freshAnalytics⟩]
        "abc12345" ⟨0, none, none, none⟩
      = (none, [⟨"abc12345", "https://example.com", none, false, freshAnalytics⟩])
    ∧ ∀ p ∈ (memResolve (memCreate [] "abc12345" none "https://example.com")
        "abc12345" 5).2, p.2.isActive = true := by
  constructor
  · exact c5_inactive_resolves_not_found.1 _ _ _ (by decide)
  · exact c5_inactive_resolves_not_found.2 _
      (MemReachable.redirect _ _ _ (MemReachable.create _ _ _ _ MemReachable.init))

/-- Plan-derived limits of an account. The unlimited tiers use -1, so the
numeric fields are integers. -/
structure Limits where
  maxQRCodes : Int
  maxScansPerMonth : Int
  canCustomize : Bool
  canTrackAnalytics : Bool
  canExportData : Bool
deriving DecidableEq

/-- An account: its plan name, derived limits, and usage counter. -/
structure UserAcct where
  plan : String
  limits : Limits
  qrCodesCreated : Int
deriving DecidableEq

/-- The pre-save hook of the User schema: when the plan field was modified,
overwrite limits from the plan by the switch on free, pro and enterprise;
otherwise leave the account untouched. -/
def applyPlanLimitsHook (u : UserAcct) (planModified : Bool) : UserAcct :=
  if planModified then
    if u.plan = "free" then { u with limits := ⟨5, 100, false, false, false⟩ }
    else if u.plan = "pro" then { u with limits := ⟨100, 10000, true, true, true⟩ }
    else if u.plan = "enterprise" then { u with limits := ⟨-1, -1, true, true, true⟩ }
    else u
  else u

/-- C7: saving an account whose plan field changed deterministically
recomputes limits from the plan, for each of the three plans, regardless of
the prior limits value. -/
theorem c7_plan_change_recomputes_limits (u : UserAcct) :
    (u.plan = "free" → (applyPlanLimitsHook u true).limits = ⟨5, 100, false, false, false⟩)
    ∧ (u.plan = "pro" → (applyPlanLimitsHook u true).limits = ⟨100, 10000, true, true, true⟩)
    ∧ (u.plan = "enterprise" → (applyPlanLimitsHook u true).limits = ⟨-1, -1, true, true, true⟩) := by
  refine ⟨fun h => ?_, fun h => ?_, fun h => ?_⟩ <;>
    simp [applyPlanLimitsHook, h]

/-- Witness for C7: a pro-plan account with stale free-tier limits gets the
pro limits rewritten by the hook. -/
theorem c7_witness :
    (applyPlanLimitsHook ⟨"pro", ⟨5, 100, false, false, false⟩, 3⟩ true).limits
      = ⟨100, 10000, true, true, true⟩ :=
  (c7_plan_change_recomputes_limits ⟨"pro", ⟨5, 100, false, false, false⟩, 3⟩).2.1 rfl

/-- The plan limit check of POST /api/qr/generate for an authenticated
owner: deny exactly when the owned-link count is at least
limits.maxQRCodes, with no special case for -1. -/
def quotaAllows (linkCount : Nat) (maxQRCodes : Int) : Bool :=
  !(decide ((linkCount : Int) ≥ maxQRCodes))

/-- C2 (claim is right, code is wrong): the quota check has no unlimited
special case, so an owner whose limits carry maxQRCodes = -1, the value the
enterprise branch of the plan hook documents as unlimited, is denied on
every creation attempt, even with zero existing links; the free-plan part
of the claim does hold: with maxQRCodes = 5 the check allows exactly the
attempts made while fewer than 5 links exist. -/
theorem c2_quota_check_unlimited_denies :
    quotaAllows 0 (-1) = false
    ∧ (∀ n : Nat, quotaAllows n (-1) = false)
    ∧ (applyPlanLimitsHook ⟨"enterprise", ⟨5, 100, false, false, false⟩, 0⟩ true).limits.maxQRCodes
        = -1
    ∧ (∀ n : Nat, quotaAllows n 5 = true ↔ n < 5) := by
  refine ⟨rfl, fun n => ?_, rfl, fun n => ?_⟩
  · simp only [quotaAllows, Bool.not_eq_false', decide_eq_true_eq]
    omega
  · simp only [quotaAllows, Bool.not_eq_true', decide_eq_false_iff_not, not_le]
    omega

/-- One owner-side usage counter operation: creation increments
usage.qrCodesCreated; deletion decrements it only when it is strictly
positive. -/
inductive UsageOp where
  | create
  | remove
deriving DecidableEq

/-- Apply one usage counter operation as the handlers do. -/
def usageStep (c : Int) : UsageOp → Int
  | .create => c + 1
  | .remove => if c > 0 then c - 1 else c

/-- The counter after a sequence of create and delete requests. -/
def usageAfter (c : Int) (ops : List UsageOp) : Int :=
  ops.foldl usageStep c

theorem usageAfter_nonneg (ops : List UsageOp) :
    ∀ c : Int, 0 ≤ c → 0 ≤ usageAfter c ops := by
  induction ops with
  | nil => intro c hc; exact hc
  | cons op rest ih =>
    intro c hc
    refine ih (usageStep c op) ?_
    cases op with
    | create => simp only [usageStep]; omega
    | remove =>
      simp only [usageStep]
      split <;> omega

/-- C10: starting from the zero counter a registration writes, no sequence
of create (increment) and delete (guarded decrement) operations ever drives
usage.qrCodesCreated negative. -/
theorem c10_usage_counter_never_negative (ops : List UsageOp) :
    0 ≤ usageAfter 0 ops :=
  usageAfter_nonneg ops 0 le_rfl

/-- The isPremium expression of POST /api/qr/generate: the optional chain
currentUser?.plan compared with strict inequality against the plan name
free, then or-ed with false. A missing user makes the optional chain yield
undefined, and undefined is strictly unequal to any string. -/
def isPremiumOf (currentUser : Option UserAcct) : Bool :=
  (match currentUser.map UserAcct.plan with
    | none => true
    | some p => p != "free") || false

/-- C9: an anonymous creation stores isPremium = true, and for an
authenticated owner isPremium is false exactly when the plan is free. -/
theorem c9_anonymous_is_premium :
    isPremiumOf none = true
    ∧ (∀ u : UserAcct, (isPremiumOf (some u) = false ↔ u.plan = "free")) := by
  refine ⟨rfl, fun u => ?_⟩
  simp [isPremiumOf]

/-- A stored QRCode document as the update and delete handlers see it. -/
structure StoredQR where
  id : String
  userId : Option String
  title : String
  description : String
  isActive : Bool
deriving DecidableEq

/-- Response of the PUT /api/qr/:id handler. -/
inductive UpdateResponse where
  | notFound (error : String)
  | ok (id title description : String) (isActive : Bool) (message : String)
deriving DecidableEq

/-- Response of the DELETE /api/qr/:id handler. -/
inductive DeleteResponse where
  | notFound (error : String)
  | ok (message : String)
deriving DecidableEq

/-- The ownership-scoped lookup both handlers run: findOne on id and
userId together. -/
def findOwned (store : List StoredQR) (qrId uid : String) : Option StoredQR :=
  store.find? (fun qr => qr.id == qrId && qr.userId == some uid)

/-- PUT /api/qr/:id for an authenticated user: ownership-scoped findOne;
a miss answers the not-found error; a hit overwrites the provided fields
and saves. -/
def handleUpdate (store : List StoredQR) (uid qrId : String)
    (title description : Option String) (isActive : Option Bool) :
    UpdateResponse × List StoredQR :=
  match findOwned store qrId uid with
  | none => (.notFound "QR code not found", store)
  | some qr =>
      let qr' : StoredQR :=
        { qr with
          title := title.getD qr.title
          description := description.getD qr.description
          isActive := isActive.getD qr.isActive }
      (.ok qr'.id qr'.title qr'.description qr'.isActive "QR code updated successfully",
        store.map (fun q => if q.id == qr.id then qr' else q))

/-- DELETE /api/qr/:id for an authenticated user: ownership-scoped findOne;
a miss answers the not-found error; a hit deletes the document by id. -/
def handleRemove (store : List StoredQR) (uid qrId : String) :
    DeleteResponse × List StoredQR :=
  match findOwned store qrId uid with
  | none => (.notFound "QR code not found", store)
  | some _ =>
      (.ok "QR code deleted successfully", store.filter (fun q => !(q.id == qrId)))

theorem handleUpdate_no_owned_match (store : List StoredQR) (uid qrId : String)
    (title description : Option String) (isActive : Option Bool)
    (h : ∀ qr ∈ store, ¬(qr.id = qrId ∧ qr.userId = some uid)) :
    handleUpdate store uid qrId title description isActive
      = (.notFound "QR code not found", store) := by
  have hf : findOwned store qrId uid = none := by
    rw [findOwned, List.find?_eq_none]
    intro qr hqr
    simpa using h qr hqr
  simp [handleUpdate, hf]

theorem handleRemove_no_owned_match (store : List StoredQR) (uid qrId : String)
    (h : ∀ qr ∈ store, ¬(qr.id = qrId ∧ qr.userId = some uid)) :
    handleRemove store uid qrId = (.notFound "QR code not found", store) := by
  have hf : findOwned store qrId uid = none := by
    rw [findOwned, List.find?_eq_none]
    intro qr hqr
    simpa using h qr hqr
  simp [handleRemove, hf]

/-- C8: for an authenticated user, updating or deleting an id with no
stored document at all produces exactly the same response as updating or
deleting an id whose document belongs to a different owner: the one
not-found error, so the response never reveals whether the link exists. -/
theorem c8_not_found_indistinguishable (s1 s2 : List StoredQR) (uid qrId : String)
    (title description : Option String) (isActive : Option Bool)
    (h1 : ∀ qr ∈ s1, qr.id ≠ qrId)
    (h2 : ∀ qr ∈ s2, qr.id = qrId → qr.userId ≠ some uid) :
    (handleUpdate s1 uid qrId title description isActive).1
        = (handleUpdate s2 uid qrId title description isActive).1
    ∧ (handleRemove s1 uid qrId).1 = (handleRemove s2 uid qrId).1
    ∧ (handleUpdate s1 uid qrId title description isActive).1
        = .notFound "QR code not found"
    ∧ (handleRemove s1 uid qrId).1 = .notFound "QR code not found" := by
  have g1 : ∀ qr ∈ s1, ¬(qr.id = qrId ∧ qr.userId = some uid) := by
    intro qr hqr hc
    exact h1 qr hqr hc.1
  have g2 : ∀ qr ∈ s2, ¬(qr.id = qrId ∧ qr.userId = some uid) := by
    intro qr hqr hc
    exact h2 qr hqr hc.1 hc.2
  rw [handleUpdate_no_owned_match s1 uid qrId title description isActive g1,
    handleUpdate_no_owned_match s2 uid qrId title description isActive g2,
    handleRemove_no_owned_match s1 uid qrId g1,
    handleRemove_no_owned_match s2 uid qrId g2]
  exact ⟨rfl, rfl, rfl, rfl⟩

/-- Witness for C8: an empty store versus a store holding the requested id
owned by someone else give identical not-found responses for update and
delete. -/
theorem c8_witness :
    (handleUpdate [] "alice" "qr1" (some "t") none none).1
        = (handleUpdate [⟨"qr1", some "bob", "t0", "d0", true⟩] "alice" "qr1"
            (some "t") none none).1
    ∧ (handleRemove [] "alice" "qr1").1
        = (handleRemove [⟨"qr1", some "bob", "t0", "d0", true⟩] "alice" "qr1").1 := by
  have h := c8_not_found_indistinguishable [] [⟨"qr1", some "bob", "t0", "d0", true⟩]
    "alice" "qr1" (some "t") none none (by decide) (by decide)
  exact ⟨h.1, h.2.1⟩

/-- Whether the pattern is an initial segment of the list. -/
def headMatches : List Char → List Char → Bool
  | [], _ => true
  | _ :: _, [] => false
  | a :: as, b :: bs => a == b && headMatches as bs

/-- Whether the pattern occurs contiguously in the list, as the JS string
includes method checks. -/
def hasSubList (pat : List Char) : List Char → Bool
  | [] => pat.isEmpty
  | c :: rest => headMatches pat (c :: rest) || hasSubList pat rest

/-- Drop leading and trailing whitespace, as the JS string trim method. -/
def trimChars (l : List Char) : List Char :=
  ((l.dropWhile Char.isWhitespace).reverse.dropWhile Char.isWhitespace).reverse

/-- JS trim on strings. -/
def strTrim (s : String) : String := ⟨trimChars s.data⟩

/-- JS toLowerCase on strings (ASCII letters). -/
def strLower (s : String) : String := ⟨s.data.map Char.toLower⟩

/-- JS startsWith on strings. -/
def strStarts (s pat : String) : Bool := headMatches pat.data s.data

/-- JS includes on strings. -/
def strContains (s pat : String) : Bool := hasSubList pat.data s.data

/-- The case-insensitive anchored regex test for an http or https scheme
used by sanitizeUrl. -/
def hasHttpScheme (t : String) : Bool :=
  strStarts (strLower t) "http://" || strStarts (strLower t) "https://"

/-- sanitizeUrl: trim the input, then prepend the https scheme unless the
string already starts with http:// or https:// case-insensitively. -/
def sanitizeUrl (s : String) : String :=
  let t := strTrim s
  if hasHttpScheme t then t else "https://" ++ t

/-- The result of the host URL parser, as far as validateUrl inspects it:
the protocol of a successfully parsed absolute URL, or none on a parse
failure. -/
structure ParsedURL where
  protocol : String
deriving DecidableEq

/-- validateUrl: parse with the host URL parser and accept exactly the
http and https protocols. -/
def validateUrl (parseURL : String → Option ParsedURL) (s : String) : Bool :=
  match parseURL s with
  | some u => u.protocol == "http:" || u.protocol == "https:"
  | none => false

/-- C6: sanitizeUrl trims and prepends https:// exactly when the trimmed
input does not already start with http:// or https:// case-insensitively,
so a bare domain sanitizes to its https form; and whenever the sanitized
form parses as an absolute URL whose protocol is http or https, validateUrl
accepts it. -/
theorem c6_sanitize_then_validate (parseURL : String → Option ParsedURL) :
    sanitizeUrl "example.com" = "https://example.com"
    ∧ (∀ s : String, hasHttpScheme (strTrim s) = true → sanitizeUrl s = strTrim s)
    ∧ (∀ s : String, hasHttpScheme (strTrim s) = false →
        sanitizeUrl s = "https://" ++ strTrim s)
    ∧ (∀ (s : String) (u : ParsedURL), parseURL (sanitizeUrl s) = some u →
        u.protocol = "http:" ∨ u.protocol = "https:" →
        validateUrl parseURL (sanitizeUrl s) = true) := by
  refine ⟨by decide, fun s h => ?_, fun s h => ?_, fun s u hp hsch => ?_⟩
  · simp [sanitizeUrl, h]
  · simp [sanitizeUrl, h]
  · rcases hsch with h | h <;> simp [validateUrl, hp, h]

/-- A URL parser stub that reports the https protocol, used to exercise
c6_sanitize_then_validate at concrete inputs. -/
def parseHttpsStub : String → Option ParsedURL := fun _ => some ⟨"https:"⟩

/-- Witness for C6: the bare domain sanitizes to its https form, the
characterization applies to it concretely, and the sanitized form passes
validateUrl under a parser that reports the https protocol. -/
theorem c6_witness :
    sanitizeUrl "example.com" = "https://example.com"
    ∧ sanitizeUrl " example.com " = "https://" ++ strTrim " example.com "
    ∧ validateUrl parseHttpsStub (sanitizeUrl "example.com") = true := by
  refine ⟨(c6_sanitize_then_validate parseHttpsStub).1, ?_, ?_⟩
  · exact (c6_sanitize_then_validate parseHttpsStub).2.2.1 " example.com " (by decide)
  · exact (c6_sanitize_then_validate parseHttpsStub).2.2.2 "example.com" ⟨"https:"⟩ rfl
      (Or.inr rfl)

/-- JS Map.set on an association list: update the first entry carrying the
key in place, or append a new entry at the end, preserving insertion
order. -/
def mapSet [DecidableEq κ] : List (κ × β) → κ → β → List (κ × β)
  | [], k, v => [(k, v)]
  | p :: rest, k, v => if p.1 = k then (k, v) :: rest else p :: mapSet rest k v

/-- JS Map.get with a default for a missing key. -/
def mapGetD [DecidableEq κ] : List (κ × β) → κ → β → β
  | [], _, d => d
  | p :: rest, k, d => if p.1 = k then p.2 else mapGetD rest k d

theorem mapGetD_set_self [DecidableEq κ] (m : List (κ × β)) (k : κ) (v d : β) :
    mapGetD (mapSet m k v) k d = v := by
  induction m with
  | nil => simp [mapSet, mapGetD]
  | cons p rest ih =>
    by_cases h : p.1 = k
    · simp [mapSet, mapGetD, h]
    · simp [mapSet, mapGetD, h, ih]

theorem mapGetD_set_ne [DecidableEq κ] (m : List (κ × β)) (k k' : κ) (v d : β)
    (h : k' ≠ k) : mapGetD (mapSet m k v) k' d = mapGetD m k' d := by
  have hkk : ¬(k = k') := fun he => h he.symm
  induction m with
  | nil => simp [mapSet, mapGetD, hkk]
  | cons p rest ih =>
    by_cases hp : p.1 = k
    · rw [show mapSet (p :: rest) k v = (k, v) :: rest from by simp [mapSet, hp]]
      simp [mapGetD, hkk, hp]
    · simp only [mapSet, if_neg hp]
      by_cases hp' : p.1 = k'
      · simp [mapGetD, hp']
      · simp [mapGetD, hp', ih]

theorem keys_mapSet_of_mem [DecidableEq κ] (m : List (κ × β)) (k : κ) (v : β)
    (h : k ∈ m.map Prod.fst) : (mapSet m k v).map Prod.fst = m.map Prod.fst := by
  induction m with
  | nil => simp at h
  | cons p rest ih =>
    by_cases hp : p.1 = k
    · simp [mapSet, hp]
    · simp only [List.map_cons] at h
      rcases List.mem_cons.1 h with h' | h'
      · exact absurd h'.symm hp
      · simp [mapSet, hp, ih h']

theorem mapSet_of_not_mem [DecidableEq κ] (m : List (κ × β)) (k : κ) (v : β)
    (h : k ∉ m.map Prod.fst) : mapSet m k v = m ++ [(k, v)] := by
  induction m with
  | nil => rfl
  | cons p rest ih =>
    simp only [List.map_cons, List.mem_cons, not_or] at h
    have hp : ¬(p.1 = k) := fun he => h.1 he.symm
    simp [mapSet, hp, ih h.2]

theorem keys_nodup_mapSet [DecidableEq κ] (m : List (κ × β)) (k : κ) (v : β)
    (h : (m.map Prod.fst).Nodup) : ((mapSet m k v).map Prod.fst).Nodup := by
  by_cases hk : k ∈ m.map Prod.fst
  · rw [keys_mapSet_of_mem m k v hk]
    exact h
  · rw [mapSet_of_not_mem m k v hk]
    simp only [List.map_append, List.map_cons, List.map_nil]
    rw [List.nodup_append]
    exact ⟨h, List.nodup_singleton _, by simpa using fun hne => hk hne⟩

theorem mem_keys_mapSet [DecidableEq κ] (m : List (κ × β)) (k : κ) (v : β) (k' : κ) :
    k' ∈ (mapSet m k v).map Prod.fst ↔ (k' ∈ m.map Prod.fst ∨ k' = k) := by
  by_cases hk : k ∈ m.map Prod.fst
  · rw [keys_mapSet_of_mem m k v hk]
    constructor
    · exact Or.inl
    · rintro (h | h)
      · exact h
      · exact h ▸ hk
  · rw [mapSet_of_not_mem m k v hk]
    simp

theorem sum_mapSet_incr [DecidableEq κ] (m : List (κ × Nat)) (k : κ) :
    ((mapSet m k (mapGetD m k 0 + 1)).map Prod.snd).sum
      = ((m.map Prod.snd).sum) + 1 := by
  induction m with
  | nil => simp [mapSet, mapGetD]
  | cons p rest ih =>
    by_cases hp : p.1 = k
    · simp only [mapSet, mapGetD, if_pos hp, List.map_cons, List.sum_cons]
      omega
    · simp only [mapSet, mapGetD, if_neg hp, List.map_cons, List.sum_cons, ih]
      omega

theorem mem_mapSet_nodup [DecidableEq κ] (m : List (κ × β)) (k : κ) (v : β)
    (hnd : (m.map Prod.fst).Nodup) (p : κ × β) :
    p ∈ mapSet m k v ↔ (p = (k, v) ∨ (p ∈ m ∧ p.1 ≠ k)) := by
  induction m with
  | nil => simp [mapSet]
  | cons q rest ih =>
    simp only [List.map_cons, List.nodup_cons] at hnd
    by_cases hq : q.1 = k
    · have hrest : ∀ r ∈ rest, r.1 ≠ k := by
        intro r hr he
        exact hnd.1 (hq ▸ he ▸ List.mem_map_of_mem Prod.fst hr)
      rw [show mapSet (q :: rest) k v = (k, v) :: rest from by simp [mapSet, hq]]
      simp only [List.mem_cons]
      constructor
      · rintro (h | h)
        · exact Or.inl h
        · exact Or.inr ⟨Or.inr h, hrest p h⟩
      · rintro (h | ⟨hm, hne⟩)
        · exact Or.inl h
        · rcases hm with h' | h'
          · exact absurd (h' ▸ hq) hne
          · exact Or.inr h'
    · simp only [mapSet, if_neg hq, List.mem_cons, ih hnd.2]
      constructor
      · rintro (h | h | ⟨hm, hne⟩)
        · exact Or.inr ⟨Or.inl h, h ▸ hq⟩
        · exact Or.inl h
        · exact Or.inr ⟨Or.inr hm, hne⟩
      · rintro (h | ⟨hm, hne⟩)
        · exact Or.inr (Or.inl h)
        · rcases hm with h' | h'
          · exact Or.inl h'
          · exact Or.inr (Or.inr ⟨h', hne⟩)

theorem mem_getD_of_nodup [DecidableEq κ] (m : List (κ × Nat))
    (hnd : (m.map Prod.fst).Nodup) (p : κ × Nat) (hp : p ∈ m) :
    p.2 = mapGetD m p.1 0 := by
  induction m with
  | nil => simp at hp
  | cons q rest ih =>
    simp only [List.map_cons, List.nodup_cons] at hnd
    rcases List.mem_cons.1 hp with h | h
    · subst h
      simp [mapGetD]
    · have hne : q.1 ≠ p.1 := by
        intro he
        exact hnd.1 (he ▸ List.mem_map_of_mem Prod.fst h)
      simp [mapGetD, hne, ih hnd.2 h]

/-- The UTC calendar day index of a timestamp, standing for the ISO date
string the aggregation truncates each timestamp to. -/
def dayOf (t : Nat) : Nat := t / msPerDay

/-- Ascending comparison on daily buckets by date, as the localeCompare
sort on ISO date strings orders them. -/
def dayLe (a b : Nat × Nat) : Prop := a.1 ≤ b.1

instance : DecidableRel dayLe := fun a b => inferInstanceAs (Decidable (a.1 ≤ b.1))

instance : IsTotal (Nat × Nat) dayLe := ⟨fun a b => Nat.le_total a.1 b.1⟩

instance : IsTrans (Nat × Nat) dayLe := ⟨fun _ _ _ hab hbc => Nat.le_trans hab hbc⟩

/-- One step of the per-day tally: Map.set of the day of the event to its
current count (or zero) plus one. -/
def tallyDay (m : List (Nat × Nat)) (e : ScanEvent) : List (Nat × Nat) :=
  mapSet m (dayOf e.timestamp) (mapGetD m (dayOf e.timestamp) 0 + 1)

/-- The zero-initialized buckets: one per day for today back through 29
days ago, in that insertion order. -/
def initDaily (now : Nat) : List (Nat × Nat) :=
  (List.range 30).foldl (fun m i => mapSet m (dayOf (now - i * msPerDay)) 0) []

/-- getDailyScans: initialize one zero bucket per day for today back
through 29 days ago, count the events no older than 30 days of
milliseconds into the bucket of their calendar day (Map.set creating a
bucket when the day is absent), and sort the entries ascending by date. -/
def getDailyScans (now : Nat) (history : List ScanEvent) : List (Nat × Nat) :=
  List.insertionSort dayLe
    ((history.filter (fun e => decide (now - 30 * msPerDay ≤ e.timestamp))).foldl
      tallyDay (initDaily now))

theorem dayOf_sub_mul (now i : Nat) (h : i * msPerDay ≤ now) :
    dayOf (now - i * msPerDay) = now / msPerDay - i := by
  rw [dayOf, Nat.mul_comm i msPerDay]
  rw [Nat.mul_comm i msPerDay] at h
  exact Nat.sub_mul_div now msPerDay i h

theorem initDaily_eq (now : Nat) (hnow : 30 * msPerDay ≤ now) :
    ∀ n, n ≤ 30 →
      (List.range n).foldl (fun m i => mapSet m (dayOf (now - i * msPerDay)) 0) []
        = (List.range n).map (fun i => (now / msPerDay - i, 0)) := by
  have htd : 30 ≤ now / msPerDay := Nat.le_div_iff_mul_le (by norm_num [msPerDay]) |>.2 hnow
  intro n
  induction n with
  | zero => intro _; rfl
  | succ n ih =>
    intro hn
    rw [List.range_succ, List.foldl_append, ih (by omega), List.map_append,
      List.foldl_cons, List.foldl_nil]
    rw [dayOf_sub_mul now n (le_trans (Nat.mul_le_mul_right msPerDay (by omega)) hnow)]
    rw [mapSet_of_not_mem]
    · rfl
    · simp only [List.map_map, List.mem_map, Function.comp]
      rintro ⟨i, hi, he⟩
      rw [List.mem_range] at hi
      have : i = n := by omega
      omega

theorem tally_keys (l : List ScanEvent) :
    ∀ m : List (Nat × Nat), (∀ e ∈ l, dayOf e.timestamp ∈ m.map Prod.fst) →
      (l.foldl tallyDay m).map Prod.fst = m.map Prod.fst := by
  induction l with
  | nil => intro m _; rfl
  | cons e rest ih =>
    intro m hm
    rw [List.foldl_cons]
    have hk : (tallyDay m e).map Prod.fst = m.map Prod.fst :=
      keys_mapSet_of_mem m _ _ (hm e (List.mem_cons_self _ _))
    rw [ih (tallyDay m e) (fun e' he' => hk ▸ hm e' (List.mem_cons_of_mem _ he')), hk]

theorem tally_getD (l : List ScanEvent) :
    ∀ (m : List (Nat × Nat)) (k : Nat),
      mapGetD (l.foldl tallyDay m) k 0
        = mapGetD m k 0 + (l.filter (fun e => dayOf e.timestamp == k)).length := by
  induction l with
  | nil => intro m k; simp
  | cons e rest ih =>
    intro m k
    rw [List.foldl_cons, ih]
    by_cases hk : dayOf e.timestamp = k
    · rw [show tallyDay m e = mapSet m k (mapGetD m k 0 + 1) from by rw [tallyDay, hk]]
      rw [mapGetD_set_self]
      simp [List.filter_cons, hk]
      omega
    · rw [tallyDay, mapGetD_set_ne m _ k _ 0 (fun he => hk he.symm)]
      simp [List.filter_cons, hk]

theorem tally_sum (l : List ScanEvent) :
    ∀ m : List (Nat × Nat),
      ((l.foldl tallyDay m).map Prod.snd).sum = ((m.map Prod.snd).sum) + l.length := by
  induction l with
  | nil => intro m; rfl
  | cons e rest ih =>
    intro m
    rw [List.foldl_cons, ih, tallyDay, sum_mapSet_incr]
    simp only [List.length_cons]
    omega

theorem mapGetD_const [DecidableEq κ] (m : List (κ × β)) (k : κ) (d : β)
    (h : ∀ p ∈ m, p.2 = d) : mapGetD m k d = d := by
  induction m with
  | nil => rfl
  | cons p rest ih =>
    by_cases hp : p.1 = k
    · simpa [mapGetD, hp] using h p (List.mem_cons_self _ _)
    · exact (by simp [mapGetD, hp] :
        mapGetD (p :: rest) k d = mapGetD rest k d).trans
        (ih (fun q hq => h q (List.mem_cons_of_mem _ hq)))

/-- C4 (amended): over the trailing 30-day window the daily series always
contains the 30 buckets of the calendar days of today back through 29 days
ago, zero-filled, strictly ascending by date, each bucket counting exactly
the in-window events of its day, and the bucket counts sum to the number of
in-window events; under the stated day-range side condition, ruling out
in-window events on the partial calendar day exactly 30 days back, the
output is exactly those 30 buckets. -/
theorem c4_daily_series_amended (now : Nat) (history : List ScanEvent)
    (hnow : 30 * msPerDay ≤ now)
    (hdays : ∀ e ∈ history, now - 30 * msPerDay ≤ e.timestamp →
      now / msPerDay - 29 ≤ dayOf e.timestamp ∧ dayOf e.timestamp ≤ now / msPerDay) :
    (getDailyScans now history).length = 30
    ∧ List.Pairwise (fun a b : Nat × Nat => a.1 < b.1) (getDailyScans now history)
    ∧ (∀ d : Nat, d ∈ (getDailyScans now history).map Prod.fst ↔
        (now / msPerDay - 29 ≤ d ∧ d ≤ now / msPerDay))
    ∧ (∀ p ∈ getDailyScans now history,
        p.2 = ((history.filter (fun e => decide (now - 30 * msPerDay ≤ e.timestamp))).filter
          (fun e => dayOf e.timestamp == p.1)).length)
    ∧ ((getDailyScans now history).map Prod.snd).sum
        = (history.filter (fun e => decide (now - 30 * msPerDay ≤ e.timestamp))).length := by
  have hpos : 0 < msPerDay := by norm_num [msPerDay]
  have htd : 30 ≤ now / msPerDay := (Nat.le_div_iff_mul_le hpos).2 hnow
  have hinit : initDaily now = (List.range 30).map (fun i => (now / msPerDay - i, 0)) :=
    initDaily_eq now hnow 30 le_rfl
  have hikeys : (initDaily now).map Prod.fst
      = (List.range 30).map (fun i => now / msPerDay - i) := by
    rw [hinit, List.map_map]
    rfl
  have hind : ((initDaily now).map Prod.fst).Nodup := by
    rw [hikeys]
    refine List.Nodup.map_on ?_ (List.nodup_range 30)
    intro i hi j hj he
    rw [List.mem_range] at hi hj
    omega
  have hmemkeys : ∀ d : Nat, d ∈ (initDaily now).map Prod.fst ↔
      (now / msPerDay - 29 ≤ d ∧ d ≤ now / msPerDay) := by
    intro d
    rw [hikeys, List.mem_map]
    constructor
    · rintro ⟨i, hi, he⟩
      rw [List.mem_range] at hi
      omega
    · rintro ⟨h1, h2⟩
      exact ⟨now / msPerDay - d, List.mem_range.2 (by omega), by omega⟩
  have hfmem : ∀ e ∈ history.filter (fun e => decide (now - 30 * msPerDay ≤ e.timestamp)),
      dayOf e.timestamp ∈ (initDaily now).map Prod.fst := by
    intro e he
    rw [List.mem_filter] at he
    exact (hmemkeys (dayOf e.timestamp)).2 (hdays e he.1 (by simpa using he.2))
  have hfkeys :
      (((history.filter (fun e => decide (now - 30 * msPerDay ≤ e.timestamp))).foldl
        tallyDay (initDaily now)).map Prod.fst) = (initDaily now).map Prod.fst :=
    tally_keys _ (initDaily now) hfmem
  have hfnd : (((history.filter (fun e => decide (now - 30 * msPerDay ≤ e.timestamp))).foldl
      tallyDay (initDaily now)).map Prod.fst).Nodup := by
    rw [hfkeys]
    exact hind
  have hget0 : ∀ k : Nat, mapGetD (initDaily now) k 0 = 0 := by
    intro k
    refine mapGetD_const (initDaily now) k 0 ?_
    intro p hp
    rw [hinit, List.mem_map] at hp
    obtain ⟨i, _, he⟩ := hp
    rw [← he]
  have hgetf : ∀ k : Nat,
      mapGetD ((history.filter (fun e => decide (now - 30 * msPerDay ≤ e.timestamp))).foldl
        tallyDay (initDaily now)) k 0
      = ((history.filter (fun e => decide (now - 30 * msPerDay ≤ e.timestamp))).filter
          (fun e => dayOf e.timestamp == k)).length := by
    intro k
    rw [tally_getD, hget0]
    omega
  have hperm : List.Perm (getDailyScans now history)
      ((history.filter (fun e => decide (now - 30 * msPerDay ≤ e.timestamp))).foldl
        tallyDay (initDaily now)) :=
    List.perm_insertionSort dayLe _
  have hpermk : List.Perm ((getDailyScans now history).map Prod.fst)
      (((history.filter (fun e => decide (now - 30 * msPerDay ≤ e.timestamp))).foldl
        tallyDay (initDaily now)).map Prod.fst) := hperm.map Prod.fst
  refine ⟨?_, ?_, ?_, ?_, ?_⟩
  · rw [hperm.length_eq, ← List.length_map _ Prod.fst, hfkeys, hikeys,
      List.length_map, List.length_range]
  · have hsorted : List.Pairwise dayLe (getDailyScans now history) :=
      List.sorted_insertionSort dayLe _
    have hne : List.Pairwise (fun a b : Nat × Nat => a.1 ≠ b.1) (getDailyScans now history) :=
      List.pairwise_map.1 (hpermk.nodup_iff.2 hfnd)
    exact (hsorted.and hne).imp (fun h => Nat.lt_of_le_of_ne h.1 h.2)
  · intro d
    rw [hpermk.mem_iff, hfkeys]
    exact hmemkeys d
  · intro p hp
    rw [hperm.mem_iff] at hp
    rw [mem_getD_of_nodup _ hfnd p hp, hgetf]
  · rw [(hperm.map Prod.snd).sum_eq, tally_sum]
    have hz : ((initDaily now).map Prod.snd).sum = 0 := by
      refine List.sum_eq_zero ?_
      intro x hx
      rw [hinit, List.map_map, List.mem_map] at hx
      obtain ⟨i, _, he⟩ := hx
      rw [← he]
      rfl
    rw [hz]
    omega

/-- C4 counterexample: with the current time half a day past a UTC
midnight, a single scan on the calendar day exactly 30 days back lies
inside the window (its timestamp is not older than now minus 30 days of
milliseconds) but on none of the 30 initialized days, so Map.set creates a
31st bucket: the series does not always have exactly 30 buckets. -/
theorem c4_counterexample :
    (getDailyScans (30 * msPerDay + msPerDay / 2)
      [⟨msPerDay / 2, none, none, none⟩]).length = 31 := by
  decide

/-- Witness for C4: at a UTC midnight with one scan at that same instant,
the amended theorem applies and yields 30 buckets summing to one event. -/
theorem c4_witness :
    (getDailyScans (30 * msPerDay) [⟨30 * msPerDay, none, none, none⟩]).length = 30
    ∧ ((getDailyScans (30 * msPerDay) [⟨30 * msPerDay, none, none, none⟩]).map
        Prod.snd).sum = 1 := by
  have h := c4_daily_series_amended (30 * msPerDay) [⟨30 * msPerDay, none, none, none⟩]
    (by decide) (by decide)
  refine ⟨h.1, ?_⟩
  rw [h.2.2.2.2]
  decide

/-- One row of the device breakdown output. -/
structure DeviceStat where
  device : String
  count : Nat
  percentage : Nat
deriving DecidableEq

/-- The user agent classification of getDeviceStats: case-insensitive
substring tests in priority order on the lowercased agent. -/
def classifyDevice (ua : String) : String :=
  let l := strLower ua
  if strContains l "mobile" || strContains l "android" || strContains l "iphone" then "Mobile"
  else if strContains l "tablet" || strContains l "ipad" then "Tablet"
  else if strContains l "bot" || strContains l "crawler" then "Bot"
  else "Desktop"

/-- JS truthiness of the optional userAgent field: absent or empty is
falsy and the event is skipped by the classification loop. -/
def uaTruthy : Option String → Bool
  | none => false
  | some s => !(s == "")

/-- One step of the device tally loop: skip events without a truthy user
agent, otherwise Map.set the classified device to its count plus one. -/
def tallyDevice (m : List (String × Nat)) (e : ScanEvent) : List (String × Nat) :=
  match e.userAgent with
  | none => m
  | some ua =>
      if ua == "" then m
      else mapSet m (classifyDevice ua) (mapGetD m (classifyDevice ua) 0 + 1)

/-- Whether an event has a truthy user agent classified to the device d. -/
def classifiesTo (e : ScanEvent) (d : String) : Bool :=
  match e.userAgent with
  | none => false
  | some ua => !(ua == "") && (classifyDevice ua == d)

/-- The number of events of the history classified to the device d. -/
def classCount (history : List ScanEvent) (d : String) : Nat :=
  (history.filter (fun e => classifiesTo e d)).length

/-- Descending comparison on device rows by count, as the sort comparator
subtracting counts orders them. -/
def cntGe (a b : DeviceStat) : Prop := b.count ≤ a.count

instance : DecidableRel cntGe := fun a b => inferInstanceAs (Decidable (b.count ≤ a.count))

instance : IsTotal DeviceStat cntGe :=
  ⟨fun a b => show b.count ≤ a.count ∨ a.count ≤ b.count from Nat.le_total _ _⟩

instance : IsTrans DeviceStat cntGe := ⟨fun _ _ _ hab hbc => Nat.le_trans hbc hab⟩

/-- Turn one tally entry into an output row: percentage is the rounded
share of the count against the full history length. -/
def mkDeviceStat (total : Nat) (p : String × Nat) : DeviceStat :=
  ⟨p.1, p.2, if total > 0 then (200 * p.2 + total) / (2 * total) else 0⟩

/-- getDeviceStats: tally the classified devices of the events carrying a
truthy user agent, compute each percentage against the length of the whole
history, and sort descending by count. -/
def getDeviceStats (history : List ScanEvent) : List DeviceStat :=
  List.insertionSort cntGe
    ((history.foldl tallyDevice []).map (mkDeviceStat history.length))

theorem classCount_append_one (seen : List ScanEvent) (e : ScanEvent) (d : String) :
    classCount (seen ++ [e]) d
      = classCount seen d + (if classifiesTo e d then 1 else 0) := by
  rw [classCount, classCount, List.filter_append, List.length_append]
  congr 1
  by_cases h : classifiesTo e d
  · simp [List.filter, h]
  · simp [List.filter, h]

/-- The invariant tying a tally map to the prefix of events already
processed: keys are distinct, each key holds the class count over the
prefix, and a key is present exactly when its class count is positive. -/
def TallyInv (m : List (String × Nat)) (seen : List ScanEvent) : Prop :=
  (m.map Prod.fst).Nodup
  ∧ (∀ d : String, mapGetD m d 0 = classCount seen d)
  ∧ (∀ d : String, d ∈ m.map Prod.fst ↔ 0 < classCount seen d)

theorem tallyInv_nil : TallyInv [] [] := by
  refine ⟨List.nodup_nil, fun d => rfl, fun d => ?_⟩
  simp [classCount]

theorem tallyInv_step (m : List (String × Nat)) (seen : List ScanEvent) (e : ScanEvent)
    (h : TallyInv m seen) : TallyInv (tallyDevice m e) (seen ++ [e]) := by
  obtain ⟨hnd, hget, hkey⟩ := h
  have skipped : tallyDevice m e = m → (∀ d : String, classifiesTo e d = false) →
      TallyInv (tallyDevice m e) (seen ++ [e]) := by
    intro hstep hcl
    refine ⟨?_, fun d => ?_, fun d => ?_⟩
    · rw [hstep]
      exact hnd
    · rw [hstep, classCount_append_one, hcl d, hget]
      rfl
    · rw [hstep, classCount_append_one, hcl d]
      simpa using hkey d
  cases hue : e.userAgent with
  | none =>
    exact skipped (by simp [tallyDevice, hue]) (fun d => by simp [classifiesTo, hue])
  | some ua =>
    by_cases hne : ua = ""
    · exact skipped (by simp [tallyDevice, hue, hne]) (fun d => by simp [classifiesTo, hue, hne])
    · have hstep : tallyDevice m e
          = mapSet m (classifyDevice ua) (mapGetD m (classifyDevice ua) 0 + 1) := by
        simp [tallyDevice, hue, hne]
      have hcl : ∀ d : String, classifiesTo e d = (classifyDevice ua == d) := by
        intro d
        simp [classifiesTo, hue, hne]
      refine ⟨?_, ?_, ?_⟩
      · rw [hstep]
        exact keys_nodup_mapSet m _ _ hnd
      · intro d
        rw [hstep, classCount_append_one, hcl d]
        by_cases hd : d = classifyDevice ua
        · rw [hd, mapGetD_set_self, hget]
          simp
        · rw [mapGetD_set_ne m _ d _ 0 hd, hget]
          rw [show (classifyDevice ua == d) = false from
            beq_eq_false_iff_ne.mpr (fun he => hd he.symm)]
          rfl
      · intro d
        rw [hstep, classCount_append_one, hcl d, mem_keys_mapSet]
        by_cases hd : d = classifyDevice ua
        · rw [show (classifyDevice ua == d) = true from beq_iff_eq.mpr hd.symm]
          simp [hd]
        · rw [show (classifyDevice ua == d) = false from
            beq_eq_false_iff_ne.mpr (fun he => hd he.symm)]
          simp only [or_iff_left hd, hkey d]
          simp

theorem tallyInv_foldl (l : List ScanEvent) :
    ∀ (m : List (String × Nat)) (seen : List ScanEvent),
      TallyInv m seen → TallyInv (l.foldl tallyDevice m) (seen ++ l) := by
  induction l with
  | nil =>
    intro m seen h
    rw [List.foldl_nil, List.append_nil]
    exact h
  | cons e rest ih =>
    intro m seen h
    rw [List.foldl_cons, show seen ++ e :: rest = (seen ++ [e]) ++ rest from by simp]
    exact ih (tallyDevice m e) (seen ++ [e]) (tallyInv_step m seen e h)

theorem tallyInv_history (history : List ScanEvent) :
    TallyInv (history.foldl tallyDevice []) history := by
  have h := tallyInv_foldl history [] [] tallyInv_nil
  rwa [List.nil_append] at h

/-- C3 (amended): the device breakdown is sorted descending by count, lists
each device class at most once, reports for every listed class exactly the
number of events whose truthy user agent classifies to it by the
case-insensitive priority rules, lists every class with a positive count,
and computes each percentage as the rounded share of the count against the
length of the whole history, events without a user agent included in the
denominator. -/
theorem c3_device_breakdown_amended (history : List ScanEvent) :
    List.Pairwise cntGe (getDeviceStats history)
    ∧ ((getDeviceStats history).map DeviceStat.device).Nodup
    ∧ (∀ s ∈ getDeviceStats history,
        s.count = classCount history s.device
        ∧ 0 < s.count
        ∧ s.percentage = (200 * s.count + history.length) / (2 * history.length))
    ∧ (∀ d : String, 0 < classCount history d →
        d ∈ (getDeviceStats history).map DeviceStat.device) := by
  obtain ⟨hnd, hget, hkey⟩ := tallyInv_history history
  have hperm : List.Perm (getDeviceStats history)
      ((history.foldl tallyDevice []).map (mkDeviceStat history.length)) :=
    List.perm_insertionSort cntGe _
  have hdev : ((history.foldl tallyDevice []).map (mkDeviceStat history.length)).map
      DeviceStat.device = (history.foldl tallyDevice []).map Prod.fst := by
    rw [List.map_map]
    rfl
  refine ⟨List.sorted_insertionSort cntGe _, ?_, ?_, ?_⟩
  · rw [(hperm.map DeviceStat.device).nodup_iff, hdev]
    exact hnd
  · intro s hs
    rw [hperm.mem_iff] at hs
    obtain ⟨p, hp, hps⟩ := List.mem_map.1 hs
    have hcount : p.2 = classCount history p.1 := by
      rw [mem_getD_of_nodup _ hnd p hp, hget]
    have hpos : 0 < classCount history p.1 :=
      (hkey p.1).1 (List.mem_map_of_mem Prod.fst hp)
    have hlen : 0 < history.length := by
      have h1 : 0 < (history.filter (fun e => classifiesTo e p.1)).length := hpos
      calc 0 < (history.filter (fun e => classifiesTo e p.1)).length := h1
        _ ≤ history.length := List.length_filter_le _ _
    rw [← hps]
    refine ⟨?_, ?_, ?_⟩
    · rw [show (mkDeviceStat history.length p).device = p.1 from rfl,
        show (mkDeviceStat history.length p).count = p.2 from rfl, hcount]
    · rw [show (mkDeviceStat history.length p).count = p.2 from rfl, hcount]
      exact hpos
    · rw [show (mkDeviceStat history.length p).count = p.2 from rfl]
      rw [show (mkDeviceStat history.length p).percentage
        = if history.length > 0 then (200 * p.2 + history.length) / (2 * history.length)
          else 0 from rfl]
      rw [if_pos hlen]
  · intro d hd
    obtain ⟨p, hp, hpd⟩ := List.mem_map.1 ((hkey d).2 hd)
    refine List.mem_map.2 ⟨mkDeviceStat history.length p, ?_, hpd⟩
    exact hperm.mem_iff.2 (List.mem_map_of_mem _ hp)

/-- The percentage formula stated by the claim, with events lacking a user
agent excluded from the denominator: the rounded share of the count
against the number of classified events only. -/
def specDevicePercentage (count classifiedTotal : Nat) : Nat :=
  if classifiedTotal > 0 then (200 * count + classifiedTotal) / (2 * classifiedTotal) else 0

/-- A history with one iPhone scan and one scan without a user agent. -/
def c3history : List ScanEvent :=
  [⟨0, some "iphone", none, none⟩, ⟨5, none, none, none⟩]

/-- C3 counterexample: on a history of one iPhone scan plus one scan with
no user agent, the code reports the Mobile row with percentage 50, the
count rounded against the full history length 2, while the percentage the
claim specifies, against the one classified event only, is 100. -/
theorem c3_counterexample :
    getDeviceStats c3history = [⟨"Mobile", 1, 50⟩]
    ∧ specDevicePercentage 1 ((c3history.filter (fun e => uaTruthy e.userAgent)).length) = 100
    ∧ ¬(50 = 100) := by
  decide

/-- A history with an iPhone scan, a Googlebot scan and a scan without a
user agent. -/
def c3whistory : List ScanEvent :=
  [⟨0, some "Mozilla iPhone", none, none⟩, ⟨1, some "Googlebot", none, none⟩,
   ⟨2, none, none, none⟩]

/-- Witness for C3: on the concrete history the amended theorem yields the
Mobile and Bot rows. -/
theorem c3_witness :
    "Mobile" ∈ (getDeviceStats c3whistory).map DeviceStat.device
    ∧ "Bot" ∈ (getDeviceStats c3whistory).map DeviceStat.device :=
  ⟨(c3_device_breakdown_amended c3whistory).2.2.2 "Mobile" (by decide),
   (c3_device_breakdown_amended c3whistory).2.2.2 "Bot" (by decide)⟩

end QR
